import Mathlib

/-!
Verification of the recap-planner core of `src/cli.py` (an automatic
movie-recap generator).  Times are modelled as exact rationals (`ℚ`);
text lines of the marker file are modelled as `List Char`.  The external
media engine (moviepy) is out of scope; where one of its values flows
back into the planner (the duration of a rendered clip) the value is
modelled from the spec, as noted on the definition.
-/

namespace RecapCli

/-! ## Timestamp parsing (`time_str_to_seconds`, `read_timestamps`) -/

/-- Digits to a natural number, most significant first. -/
def digitsToNat (cs : List Char) : ℕ :=
  cs.foldl (fun a c => a * 10 + (c.toNat - '0'.toNat)) 0

/-- Model of Python `int(s)`: optional surrounding whitespace, optional
sign, then a nonempty digit string. -/
def parsePyInt (s : List Char) : Option ℤ :=
  let t := (s.dropWhile Char.isWhitespace).reverse.dropWhile Char.isWhitespace |>.reverse
  let signAndRest : ℤ × List Char :=
    match t with
    | '-' :: cs => (-1, cs)
    | '+' :: cs => (1, cs)
    | cs => (1, cs)
  if signAndRest.2 ≠ [] ∧ signAndRest.2.all Char.isDigit = true then
    some (signAndRest.1 * (digitsToNat signAndRest.2 : ℤ))
  else none

/-- Restriction of Python `float(s)` to the plain finite decimal forms
(optional sign, digits, optional dot with fractional digits).  Python's
`float` also accepts `nan`, `inf` and scientific notation; that full
domain is modelled by `parsePyFloatFull` below, on which the parser's
bound-and-sortedness theorem is proved.  The theorems proved over this
restricted layer (line-skipping, duplicate preservation, and the concrete
counterexamples) do not depend on the dropped cases. -/
def parsePyFloat (s : List Char) : Option ℚ :=
  let t := (s.dropWhile Char.isWhitespace).reverse.dropWhile Char.isWhitespace |>.reverse
  let signAndRest : ℚ × List Char :=
    match t with
    | '-' :: cs => (-1, cs)
    | '+' :: cs => (1, cs)
    | cs => (1, cs)
  let intPart := signAndRest.2.takeWhile Char.isDigit
  let rest := signAndRest.2.dropWhile Char.isDigit
  match rest with
  | [] =>
    if intPart ≠ [] then some (signAndRest.1 * (digitsToNat intPart : ℚ)) else none
  | '.' :: frac =>
    if (frac.all Char.isDigit = true) ∧ (intPart ≠ [] ∨ frac ≠ []) then
      some (signAndRest.1 *
        ((digitsToNat intPart : ℚ) + (digitsToNat frac : ℚ) / (10 : ℚ) ^ frac.length))
    else none
  | _ => none

/-- Test `leadsWith pat cs`: true when `pat` is an initial run of `cs`. -/
def leadsWith : List Char → List Char → Bool
  | [], _ => true
  | _ :: _, [] => false
  | a :: as, b :: bs => a == b && leadsWith as bs

/-- Split on every leftmost, non-overlapping occurrence of the separator
`s0 :: srest`, as Python `str.split(sep)` does.  The fuel argument only
makes the recursion structural; every occurrence of the separator consumes
at least one character, so `cs.length` fuel is always enough. -/
def splitSeqAux (s0 : Char) (srest : List Char) : ℕ → List Char → List Char → List (List Char)
  | _, [], acc => [acc.reverse]
  | 0, cs, acc => [acc.reverse ++ cs]
  | fuel + 1, c :: cs, acc =>
    if leadsWith (s0 :: srest) (c :: cs) then
      acc.reverse :: splitSeqAux s0 srest fuel (cs.drop srest.length) []
    else
      splitSeqAux s0 srest fuel cs (c :: acc)

/-- Python `str.split(sep)` for a nonempty separator. -/
def splitSeq (sep : List Char) (cs : List Char) : List (List Char) :=
  match sep with
  | [] => [cs]
  | s0 :: srest => splitSeqAux s0 srest cs.length cs []

/-- Python `str.strip()`. -/
def trimChars (cs : List Char) : List Char :=
  (cs.dropWhile Char.isWhitespace).reverse.dropWhile Char.isWhitespace |>.reverse

/-- Model of `time_str_to_seconds` of `src/cli.py`: split on `:` into exactly three
fields, `int` hours, `int` minutes, `float` seconds
(`h*3600 + m*60 + s`); any other shape raises `ValueError`, modelled as
`none`. -/
def time_str_to_seconds (t : List Char) : Option ℚ :=
  match splitSeq [':'] t with
  | [h, m, s] => do
    let hv ← parsePyInt h
    let mv ← parsePyInt m
    let sv ← parsePyFloat s
    pure ((hv : ℚ) * 3600 + (mv : ℚ) * 60 + sv)
  | _ => none

/-- One line of the marker file: after stripping, split on `-->`; exactly
two parts are required, and both must parse as time strings.  Any failure
makes the line contribute nothing (`none`). -/
def parseTimestampLine (line : List Char) : Option (ℚ × ℚ) :=
  match splitSeq ['-', '-', '>'] (trimChars line) with
  | [a, b] => do
    let s ← time_str_to_seconds (trimChars a)
    let e ← time_str_to_seconds (trimChars b)
    pure (s, e)
  | _ => none

/-- The per-line filter of `read_timestamps`: drop the line if it does not
parse, drop the interval if `start_sec >= video_duration`, clamp
`end_sec` down to `video_duration`. -/
def retained (vd : ℚ) (line : List Char) : Option (ℚ × ℚ) :=
  (parseTimestampLine line).bind fun p =>
    if vd ≤ p.1 then none
    else some (p.1, if vd < p.2 then vd else p.2)

/-- Ordering by interval start, the sort key of `read_timestamps`. -/
def tsLe (a b : ℚ × ℚ) : Prop := a.1 ≤ b.1

instance : DecidableRel tsLe := fun a b => inferInstanceAs (Decidable (a.1 ≤ b.1))

instance : IsTotal (ℚ × ℚ) tsLe := ⟨fun a b => le_total a.1 b.1⟩

instance : IsTrans (ℚ × ℚ) tsLe := ⟨fun _ _ _ h1 h2 => le_trans h1 h2⟩

/-- Model of `read_timestamps` of `src/cli.py`, applied to the lines of an already
opened marker file: parse each line, filter and clamp against the video
duration, sort ascending by start. -/
def read_timestamps (lines : List (List Char)) (vd : ℚ) : List (ℚ × ℚ) :=
  List.insertionSort tsLe (lines.filterMap (retained vd))

/-- Model of `read_timestamps` including the file-level failure path: the `except`
around the `open` re-raises, so an unreadable file is an error while any
readable file yields a result. -/
def read_timestamps_file (file : Except Unit (List (List Char))) (vd : ℚ) :
    Except Unit (List (ℚ × ℚ)) :=
  match file with
  | .error e => .error e
  | .ok lines => .ok (read_timestamps lines vd)

/-! ## The full Python float domain

Python's `float()` also accepts `nan`, `inf`/`infinity` and scientific
notation, and the marker parser compares the resulting values with the
IEEE-754 semantics (`nan >= vd`, `nan > vd` and `nan < vd` are all
`False`), so a `nan` time field is *retained*, unclamped.  This layer
models that value domain; finite values are carried exactly as rationals
(the same idealisation of binary floating point used throughout this
file), so the overflow of enormous exponents to `inf` is not modelled,
and like `parsePyInt` the numeral syntax omits underscore grouping —
both dropped cases only produce ordinary finite values that satisfy the
same retention and clamping facts proved below. -/

/-- A value Python `float()` can return: an (exact) finite number, one of
the two infinities, or `nan`. -/
inductive PyFloat where
  | finite (q : ℚ)
  | pinf
  | ninf
  | nan
deriving DecidableEq

/-- IEEE-754 `<` as Python compares floats: `nan` is incomparable. -/
def PyFloat.lt : PyFloat → PyFloat → Bool
  | .finite a, .finite b => decide (a < b)
  | .finite _, .pinf => true
  | .ninf, .finite _ => true
  | .ninf, .pinf => true
  | _, _ => false

/-- IEEE-754 `<=` as Python compares floats: `nan` is incomparable. -/
def PyFloat.le : PyFloat → PyFloat → Bool
  | .finite a, .finite b => decide (a ≤ b)
  | .finite _, .pinf => true
  | .ninf, .finite _ => true
  | .ninf, .ninf => true
  | .ninf, .pinf => true
  | .pinf, .pinf => true
  | _, _ => false

/-- Add a finite number to a Python float (`int*3600 + int*60 + s`):
infinities and `nan` absorb the finite summand. -/
def PyFloat.addFin (q : ℚ) : PyFloat → PyFloat
  | .finite r => .finite (q + r)
  | x => x

/-- Parse a decimal mantissa `digits[.digits]` (at least one digit),
returning its value and the unconsumed remainder. -/
def parseDecimalMantissa (cs : List Char) : Option (ℚ × List Char) :=
  let ip := cs.takeWhile Char.isDigit
  let r1 := cs.dropWhile Char.isDigit
  match r1 with
  | '.' :: r2 =>
    let fp := r2.takeWhile Char.isDigit
    let r3 := r2.dropWhile Char.isDigit
    if ip = [] ∧ fp = [] then none
    else some ((digitsToNat ip : ℚ) + (digitsToNat fp : ℚ) / (10 : ℚ) ^ fp.length, r3)
  | _ =>
    if ip = [] then none else some ((digitsToNat ip : ℚ), r1)

/-- Parse an optional exponent suffix `e[sign]digits` that must consume
the whole remainder; the result scales the mantissa by `10^k` or
`10^(-k)`. -/
def parseExponent (cs : List Char) : Option (ℚ → ℚ) :=
  match cs with
  | [] => some id
  | c :: rest =>
    if c = 'e' ∨ c = 'E' then
      match rest with
      | '-' :: ds =>
        if ds ≠ [] ∧ ds.all Char.isDigit = true then
          some (fun m => m / (10 : ℚ) ^ digitsToNat ds)
        else none
      | '+' :: ds =>
        if ds ≠ [] ∧ ds.all Char.isDigit = true then
          some (fun m => m * (10 : ℚ) ^ digitsToNat ds)
        else none
      | ds =>
        if ds ≠ [] ∧ ds.all Char.isDigit = true then
          some (fun m => m * (10 : ℚ) ^ digitsToNat ds)
        else none
    else none

/-- Model of Python `float(s)` over the full domain: optional surrounding
whitespace and sign, then case-insensitive `nan`, `inf`/`infinity`, or a
decimal numeral with optional exponent. -/
def parsePyFloatFull (s : List Char) : Option PyFloat :=
  let t := trimChars s
  let sr : Bool × List Char :=
    match t with
    | '-' :: cs => (true, cs)
    | '+' :: cs => (false, cs)
    | cs => (false, cs)
  let low := sr.2.map Char.toLower
  if low = ['n', 'a', 'n'] then some .nan
  else if low = ['i', 'n', 'f'] ∨ low = ['i', 'n', 'f', 'i', 'n', 'i', 't', 'y'] then
    some (if sr.1 then .ninf else .pinf)
  else
    match parseDecimalMantissa sr.2 with
    | none => none
    | some (m, rest) =>
      match parseExponent rest with
      | none => none
      | some scale => some (.finite ((if sr.1 then -1 else 1) * scale m))

/-- Model of `time_str_to_seconds` over the full float domain: the `int`
fields are necessarily finite, the seconds field may be `nan` or
infinite, and the sum propagates it. -/
def time_str_to_seconds_py (t : List Char) : Option PyFloat :=
  match splitSeq [':'] t with
  | [h, m, s] => do
    let hv ← parsePyInt h
    let mv ← parsePyInt m
    let sv ← parsePyFloatFull s
    pure (PyFloat.addFin ((hv : ℚ) * 3600 + (mv : ℚ) * 60) sv)
  | _ => none

/-- One marker line over the full float domain. -/
def parseTimestampLinePy (line : List Char) : Option (PyFloat × PyFloat) :=
  match splitSeq ['-', '-', '>'] (trimChars line) with
  | [a, b] => do
    let s ← time_str_to_seconds_py (trimChars a)
    let e ← time_str_to_seconds_py (trimChars b)
    pure (s, e)
  | _ => none

/-- The per-line filter of `read_timestamps` over the full float domain:
discard the interval when the program's `start_sec >= video_duration`
test holds (false for a `nan` start, which is therefore retained), clamp
the end when `end_sec > video_duration` holds (false for a `nan` end,
which is therefore kept unclamped). -/
def retainedPy (vd : ℚ) (line : List Char) : Option (PyFloat × PyFloat) :=
  (parseTimestampLinePy line).bind fun p =>
    if PyFloat.le (.finite vd) p.1 = true then none
    else some (p.1, if PyFloat.lt (.finite vd) p.2 = true then .finite vd else p.2)

/-- Stable insertion by start key using the program's `<`: the element
goes in front of the first entry not below it.  On totally ordered (all
finite) keys this is exactly Python's stable ascending sort; with `nan`
keys Python's Timsort order depends on its comparison schedule, and this
insertion order stands in for it — no theorem below depends on the order
in that case. -/
def insertByStart (p : PyFloat × PyFloat) :
    List (PyFloat × PyFloat) → List (PyFloat × PyFloat)
  | [] => [p]
  | q :: rest =>
    if PyFloat.lt q.1 p.1 = true then q :: insertByStart p rest else p :: q :: rest

/-- Sort by start key, stably, using the program's `<`. -/
def sortByStart : List (PyFloat × PyFloat) → List (PyFloat × PyFloat)
  | [] => []
  | p :: rest => insertByStart p (sortByStart rest)

/-- Model of `read_timestamps` over the full Python float domain. -/
def read_timestamps_py (lines : List (List Char)) (vd : ℚ) : List (PyFloat × PyFloat) :=
  sortByStart (lines.filterMap (retainedPy vd))

/-! ## Interval cursor (`get_next_valid_timestamp`) -/

/-- Model of `get_next_valid_timestamp` of `src/cli.py`: the head of the sublist of
intervals whose start is at least `current_time + min_gap`. -/
def get_next_valid_timestamp (current_time : ℚ) (timestamps : List (ℚ × ℚ))
    (min_gap : ℚ) : Option (ℚ × ℚ) :=
  (timestamps.filter fun p => decide (current_time + min_gap ≤ p.1)).head?

/-! ## Segment generators -/

/-- The three effect kinds of the selector (`'normal'`, `'slow'`, `'freeze'`). -/
inductive EffectKind where
  | normal
  | slow
  | freeze
deriving DecidableEq

/-- An accepted segment: which effect produced it, the extraction window
`[extraction_start, extraction_start + extraction_duration)` cut out of the
source, the duration the rendered clip contributes to the recap timeline,
and the cursor value (`new_time`) the generator returned. -/
structure SegmentDescriptor where
  effect : EffectKind
  extraction_start : ℚ
  extraction_duration : ℚ
  timeline_duration : ℚ
  resolved_end : ℚ
deriving DecidableEq

/-- Model of `random.uniform(2, 3)`: `2 + uclamp u` for an arbitrary
draw `u`: the clamp only encodes that the drawn value lies in `[2, 3]`. -/
def uclamp (u : ℚ) : ℚ := max 0 (min 1 u)

/-- Model of `generate_normal_clip` of `src/cli.py`: next interval at the default
`min_gap = 2`, a drawn duration in `[2, 3]`, rejected when the window
would reach the end of the video; the clip is
`video.subclip(start, min(start + duration, video.duration))` and plays at
normal speed. -/
def generate_normal_clip (vd current_time : ℚ) (ts : List (ℚ × ℚ)) (u : ℚ) :
    Option (SegmentDescriptor × ℚ) :=
  match get_next_valid_timestamp current_time ts 2 with
  | none => none
  | some nt =>
    let start := nt.1
    let duration := 2 + uclamp u
    if start + duration ≥ vd then none
    else
      let ed := min (start + duration) vd - start
      some ({ effect := .normal, extraction_start := start, extraction_duration := ed,
              timeline_duration := ed, resolved_end := start + duration },
            start + duration)

/-- Model of `apply_slow_motion_effect` of `src/cli.py`: next interval at the
default `min_gap = 2`, fixed `slow_duration = 2`, rejected when the window
would reach the end of the video.  The extracted clip is run through
`vfx.speedx` with factor `0.5`; that renderer is external, and per the
spec contract half-speed playback doubles the clip's duration, so
`timeline_duration = 2 × extraction_duration`. -/
def apply_slow_motion_effect (vd current_time : ℚ) (ts : List (ℚ × ℚ)) :
    Option (SegmentDescriptor × ℚ) :=
  match get_next_valid_timestamp current_time ts 2 with
  | none => none
  | some nt =>
    let start := nt.1
    let dur : ℚ := 2
    if start + dur ≥ vd then none
    else
      let ed := min (start + dur) vd - start
      some ({ effect := .slow, extraction_start := start, extraction_duration := ed,
              timeline_duration := 2 * ed, resolved_end := start + dur },
            start + dur)

/-- Model of `apply_freeze_effect` of `src/cli.py`: next interval at `min_gap = 2`,
a near-instant `0.1` s extraction at the interval start, rejected when even
that window would reach the end of the video; the returned cursor is
`freeze_start + freeze_duration` with `freeze_duration = 3`.  The held
frame is rendered by the external `freeze` effect; modelled from the spec:
the frame is held for the fixed freeze duration, so `timeline_duration`
is the 3-second display duration. -/
def apply_freeze_effect (vd current_time : ℚ) (ts : List (ℚ × ℚ)) :
    Option (SegmentDescriptor × ℚ) :=
  match get_next_valid_timestamp current_time ts 2 with
  | none => none
  | some nt =>
    let start := nt.1
    if start + 1/10 ≥ vd then none
    else
      let ed := min (start + 1/10) vd - start
      some ({ effect := .freeze, extraction_start := start, extraction_duration := ed,
              timeline_duration := 3, resolved_end := start + 3 },
            start + 3)

/-! ## Effect selector and planner loop (`generate_recap`) -/

/-- The running effect counters `effect_counts`. -/
structure EffectCounts where
  normal : ℕ
  slow : ℕ
  freeze : ℕ
deriving DecidableEq

/-- Increment the counter of one kind, as `effect_counts[kind] += 1`. -/
def bump (c : EffectCounts) : EffectKind → EffectCounts
  | .normal => { c with normal := c.normal + 1 }
  | .slow => { c with slow := c.slow + 1 }
  | .freeze => { c with freeze := c.freeze + 1 }

/-- Read one kind's counter. -/
def countsGet (c : EffectCounts) : EffectKind → ℕ
  | .normal => c.normal
  | .slow => c.slow
  | .freeze => c.freeze

/-- The weighted candidate multiset `available_effects` built each
iteration from the observed shares, with the full-set fallback when all
kinds are at their ceilings. -/
def availableEffects (c : EffectCounts) (total_clips : ℕ) : List EffectKind :=
  let pn : ℚ := if total_clips = 0 then 0 else (c.normal : ℚ) / (total_clips : ℚ)
  let ps : ℚ := if total_clips = 0 then 0 else (c.slow : ℚ) / (total_clips : ℚ)
  let pf : ℚ := if total_clips = 0 then 0 else (c.freeze : ℚ) / (total_clips : ℚ)
  let l := (if pn < 3/5 then [EffectKind.normal, .normal, .normal] else []) ++
           (if ps < 1/5 then [EffectKind.slow] else []) ++
           (if pf < 1/5 then [EffectKind.freeze] else [])
  if l = [] then [.normal, .normal, .slow, .freeze] else l

/-- Model of `random.choice`: an arbitrary drawn index reduced modulo
the candidate list's length. -/
def pick (l : List EffectKind) (c : ℕ) : EffectKind :=
  l.getD (c % l.length) .normal

/-- One iteration's random draws: the `random.choice` index and the
`random.uniform` value used by the normal generator. -/
structure Draw where
  choice : ℕ
  u : ℚ

/-- The mutable state of the planning loop in `generate_recap`.  `failed`
records, when the loop stopped because a generator returned
`(None, None)`, which kind that final failed call had. -/
structure PlanState where
  current_time : ℚ
  total_duration : ℚ
  plan : List SegmentDescriptor
  counts : EffectCounts
  total_clips : ℕ
  failed : Option EffectKind
deriving DecidableEq

/-- Dispatch to the generator of the chosen kind, as the
`if effect_type == ...` ladder does. -/
def runGenerator (vd current_time : ℚ) (ts : List (ℚ × ℚ)) (eff : EffectKind) (u : ℚ) :
    Option (SegmentDescriptor × ℚ) :=
  match eff with
  | .slow => apply_slow_motion_effect vd current_time ts
  | .freeze => apply_freeze_effect vd current_time ts
  | .normal => generate_normal_clip vd current_time ts u

/-- The kind drawn for this iteration: the candidate multiset is built
from the shares observed over the already incremented `total_clips`, as
in the source, where `total_clips += 1` precedes the percentage
computation. -/
def chosenEffect (st : PlanState) (d : Draw) : EffectKind :=
  pick (availableEffects st.counts (st.total_clips + 1)) d.choice

/-- One iteration of the planner loop: bump `total_clips`, draw a kind,
run its generator, and bump that kind's counter — the bump happens whether
or not the generator produced a clip, exactly as in the source, where
`effect_counts[...] += 1` precedes the `if clip is None` check. -/
def planStep (vd : ℚ) (ts : List (ℚ × ℚ)) (st : PlanState) (d : Draw) : PlanState :=
  match runGenerator vd st.current_time ts (chosenEffect st d) d.u with
  | none =>
    { st with
      total_clips := st.total_clips + 1,
      counts := bump st.counts (chosenEffect st d),
      failed := some (chosenEffect st d) }
  | some (seg, t) =>
    { current_time := t,
      total_duration := st.total_duration + seg.timeline_duration,
      plan := st.plan ++ [seg],
      counts := bump st.counts (chosenEffect st d),
      total_clips := st.total_clips + 1,
      failed := none }

/-- The planner loop `while total_duration < target_duration`.  The draw
list both supplies the randomness and bounds the iteration count; the loop
also stops when a generator fails (`break` in the source).  The advisory
resource guard around the loop body (psutil, an external collaborator) is
modelled as always reporting sufficient resources. -/
def planLoop (vd target : ℚ) (ts : List (ℚ × ℚ)) : List Draw → PlanState → PlanState
  | [], st => st
  | d :: ds, st =>
    if st.total_duration < target then
      if (planStep vd ts st d).failed.isSome then planStep vd ts st d
      else planLoop vd target ts ds (planStep vd ts st d)
    else st

/-- The initial loop state: cursor at `0`, nothing accumulated. -/
def initPlanState : PlanState :=
  { current_time := 0, total_duration := 0, plan := [], counts := ⟨0, 0, 0⟩,
    total_clips := 0, failed := none }

/-- The whole planning phase of `generate_recap`. -/
def runPlanner (vd target : ℚ) (ts : List (ℚ × ℚ)) (draws : List Draw) : PlanState :=
  planLoop vd target ts draws initPlanState

/-! ## Transition placer -/

/-- A render instruction: a single segment (hard cut) or a crossfaded
pair with its transition duration. -/
inductive RenderInstruction (α : Type) where
  | single (s : α)
  | pair (a b : α) (d : ℚ)
deriving DecidableEq

/-- The `final_clips` assembly loop of `generate_recap`, recursing over
the suffix of the clip list that starts at index `i`: a boundary index in
`transition_indices` merges clips `i` and `i+1` into a crossfade pair
(duration `0.3`); a clip whose predecessor's index was chosen is skipped
(`i not in [x + 1 for x in transition_indices]`); anything else is kept
standalone. -/
def placeAux (idx : List ℕ) : ℕ → List α → List (RenderInstruction α)
  | _, [] => []
  | i, [a] => if i ∈ idx.map (· + 1) then [] else [.single a]
  | i, a :: b :: rest =>
    if i ∈ idx then
      .pair a b (3/10) :: placeAux idx (i + 1) (b :: rest)
    else if i ∈ idx.map (· + 1) then
      placeAux idx (i + 1) (b :: rest)
    else
      .single a :: placeAux idx (i + 1) (b :: rest)

/-- The transition placer of `generate_recap`, with the sampled boundary
indices passed in explicitly. -/
def placeTransitions (clips : List α) (idx : List ℕ) : List (RenderInstruction α) :=
  placeAux idx 0 clips

/-- Flatten render instructions back to the segments they carry, in
playback order. -/
def flattenRI : List (RenderInstruction α) → List α
  | [] => []
  | .single a :: rest => a :: flattenRI rest
  | .pair a b _ :: rest => a :: b :: flattenRI rest

/-- What `random.sample(range(n - 1), transition_count)` can return for a
plan of `n` clips: distinct boundary indices below `n - 1`, as many as
`min(int(0.4 * (n - 1)), 5)` (the `0.4` float factor modelled as `2/5`). -/
def validTransitionSample (n : ℕ) (idx : List ℕ) : Prop :=
  idx.Nodup ∧ (∀ i ∈ idx, i < n - 1) ∧
    idx.length = min (Int.toNat ⌊(2 : ℚ) / 5 * ((n : ℚ) - 1)⌋) 5

instance (n : ℕ) (idx : List ℕ) : Decidable (validTransitionSample n idx) := by
  unfold validTransitionSample; infer_instance

/-- The target duration of a run: the audio duration when an audio track
is given, else the video duration, capped at 60 s. -/
def recapTarget (vd : ℚ) (audioDuration : Option ℚ) : ℚ :=
  match audioDuration with
  | some ad => min ad 60
  | none => min vd 60

/-- Model of `generate_recap` of `src/cli.py`, reduced to its planning decisions:
run the planner loop, fail when it accepted no clip at all (the
`if not clips_with_transitions: raise` guard), otherwise assemble the
render instructions with the sampled transition boundaries. -/
def generate_recap (vd : ℚ) (audioDuration : Option ℚ) (ts : List (ℚ × ℚ))
    (draws : List Draw) (tidx : List ℕ) :
    Except String (List (RenderInstruction SegmentDescriptor)) :=
  if (runPlanner vd (recapTarget vd audioDuration) ts draws).plan.isEmpty then
    Except.error "Tidak dapat menghasilkan klip video yang cukup."
  else
    Except.ok (placeTransitions (runPlanner vd (recapTarget vd audioDuration) ts draws).plan tidx)

/-! ## Lemmas about the parser and the cursor -/

theorem head?_filter_eq_find? (p : α → Bool) (l : List α) :
    (l.filter p).head? = l.find? p := by
  induction l with
  | nil => rfl
  | cons a l ih => cases h : p a <;> simp [List.filter_cons, List.find?_cons, h, ih]

theorem get_next_valid_timestamp_mem {c g : ℚ} {ts : List (ℚ × ℚ)} {p : ℚ × ℚ}
    (h : get_next_valid_timestamp c ts g = some p) : c + g ≤ p.1 ∧ p ∈ ts := by
  unfold get_next_valid_timestamp at h
  rw [head?_filter_eq_find?] at h
  exact ⟨by simpa using List.find?_some h, List.mem_of_find?_eq_some h⟩

theorem get_next_valid_timestamp_none {c g : ℚ} {ts : List (ℚ × ℚ)} :
    get_next_valid_timestamp c ts g = none ↔ ∀ p ∈ ts, p.1 < c + g := by
  unfold get_next_valid_timestamp
  rw [List.head?_eq_none_iff, List.filter_eq_nil_iff]
  constructor
  · intro h p hp
    have := h p hp
    simpa [not_le] using this
  · intro h p hp
    simp [not_le.mpr (h p hp)]

theorem mem_insertByStart {p x : PyFloat × PyFloat} {l : List (PyFloat × PyFloat)} :
    x ∈ insertByStart p l ↔ x = p ∨ x ∈ l := by
  induction l with
  | nil => simp [insertByStart]
  | cons q rest ih =>
    simp only [insertByStart]
    split
    · simp only [List.mem_cons, ih]
      tauto
    · simp only [List.mem_cons]

theorem mem_sortByStart {x : PyFloat × PyFloat} {l : List (PyFloat × PyFloat)} :
    x ∈ sortByStart l ↔ x ∈ l := by
  induction l with
  | nil => simp [sortByStart]
  | cons p rest ih => simp [sortByStart, mem_insertByStart, ih]

theorem insertByStart_sorted {p : PyFloat × PyFloat} {l : List (PyFloat × PyFloat)}
    (hp : ∃ q, p.1 = PyFloat.finite q) (hl : ∀ x ∈ l, ∃ q, x.1 = PyFloat.finite q)
    (hs : l.Pairwise (fun a b => PyFloat.le a.1 b.1 = true)) :
    (insertByStart p l).Pairwise (fun a b => PyFloat.le a.1 b.1 = true) := by
  induction l with
  | nil => simp [insertByStart]
  | cons q rest ih =>
    obtain ⟨a, ha⟩ := hp
    obtain ⟨b, hb⟩ := hl q (by simp)
    rw [List.pairwise_cons] at hs
    simp only [insertByStart]
    split
    · rename_i hlt
      rw [List.pairwise_cons]
      refine ⟨?_, ih (fun x hx => hl x (by simp [hx])) hs.2⟩
      intro x hx
      rcases mem_insertByStart.mp hx with rfl | hx
      · rw [ha, hb] at hlt ⊢
        simp only [PyFloat.lt, decide_eq_true_eq] at hlt
        simp only [PyFloat.le, decide_eq_true_eq]
        linarith
      · exact hs.1 x hx
    · rename_i hlt
      rw [List.pairwise_cons]
      refine ⟨?_, List.pairwise_cons.mpr hs⟩
      intro x hx
      rcases List.mem_cons.mp hx with rfl | hx
      · rw [ha, hb] at hlt ⊢
        simp only [PyFloat.lt, decide_eq_true_eq] at hlt
        simp only [PyFloat.le, decide_eq_true_eq]
        linarith
      · obtain ⟨cx, hcx⟩ := hl x (by simp [hx])
        have hqx := hs.1 x hx
        rw [hb, hcx] at hqx
        rw [ha, hb] at hlt
        rw [ha, hcx]
        simp only [PyFloat.lt, decide_eq_true_eq] at hlt
        simp only [PyFloat.le, decide_eq_true_eq] at hqx ⊢
        linarith

theorem sortByStart_sorted {l : List (PyFloat × PyFloat)}
    (hl : ∀ x ∈ l, ∃ q, x.1 = PyFloat.finite q) :
    (sortByStart l).Pairwise (fun a b => PyFloat.le a.1 b.1 = true) := by
  induction l with
  | nil => simp [sortByStart]
  | cons p rest ih =>
    simp only [sortByStart]
    exact insertByStart_sorted (hl p (by simp))
      (fun x hx => hl x (List.mem_cons.mpr (Or.inr (mem_sortByStart.mp hx))))
      (ih (fun x hx => hl x (by simp [hx])))

theorem mem_read_timestamps_py {lines : List (List Char)} {vd : ℚ}
    {p : PyFloat × PyFloat} (h : p ∈ read_timestamps_py lines vd) :
    PyFloat.le (.finite vd) p.1 = false ∧ PyFloat.lt (.finite vd) p.2 = false := by
  unfold read_timestamps_py at h
  rw [mem_sortByStart] at h
  obtain ⟨line, -, hret⟩ := List.mem_filterMap.mp h
  unfold retainedPy at hret
  rcases hq : parseTimestampLinePy line with _ | q
  · rw [hq] at hret; simp at hret
  · rw [hq] at hret
    simp only [Option.some_bind] at hret
    by_cases hge : PyFloat.le (.finite vd) q.1 = true
    · rw [if_pos hge] at hret; simp at hret
    · rw [if_neg hge] at hret
      injection hret with hret
      subst hret
      refine ⟨by simpa using hge, ?_⟩
      dsimp only
      by_cases hlt : PyFloat.lt (.finite vd) q.2 = true
      · rw [if_pos hlt]
        simp [PyFloat.lt]
      · rw [if_neg hlt]
        simpa using hlt

/-! ## Claim theorems: parser and cursor -/

/-- C3, counterexample: a marker file the parser accepts whose output
contains an inverted interval `(10, 5)` (start not below end) and a
negative start `-3600`; the claimed per-interval bound
`0 ≤ start < end ≤ video_duration` is false for this run. -/
theorem read_timestamps_bounds_cex :
    read_timestamps [String.data "0:00:10 --> 0:00:05",
        String.data "-1:00:00 --> 0:00:10"] 100 = [(-3600, 10), (10, 5)] ∧
    ¬(∀ p ∈ read_timestamps [String.data "0:00:10 --> 0:00:05",
        String.data "-1:00:00 --> 0:00:10"] 100, 0 ≤ p.1 ∧ p.1 < p.2 ∧ p.2 ≤ 100) :=
  ⟨by with_unfolding_all rfl, of_decide_eq_true (by with_unfolding_all rfl)⟩

/-- C3 (amended): for every marker file accepted by the parser and every
`video_duration`, over the full Python float domain: no returned
interval's start passes the program's `start_sec >= video_duration` test
and no returned end passes `end_sec > video_duration` (ends above are
clamped down), hence every finite start is below `video_duration` and
every finite end is at most it; and whenever every retained start is a
finite number the output is sorted ascending by start.  `nan` time
fields are retained, not rejected (with a `nan` end kept unclamped), and
neither `0 ≤ start` nor `start < end` is guaranteed. -/
theorem read_timestamps_py_sorted_and_clamped (lines : List (List Char)) (vd : ℚ) :
    (∀ p ∈ read_timestamps_py lines vd,
      PyFloat.le (.finite vd) p.1 = false ∧ PyFloat.lt (.finite vd) p.2 = false) ∧
    (∀ p ∈ read_timestamps_py lines vd, ∀ a : ℚ, p.1 = PyFloat.finite a → a < vd) ∧
    (∀ p ∈ read_timestamps_py lines vd, ∀ b : ℚ, p.2 = PyFloat.finite b → b ≤ vd) ∧
    ((∀ p ∈ read_timestamps_py lines vd, ∃ q : ℚ, p.1 = PyFloat.finite q) →
      (read_timestamps_py lines vd).Pairwise (fun x y => PyFloat.le x.1 y.1 = true)) := by
  refine ⟨fun p hp => mem_read_timestamps_py hp, ?_, ?_, ?_⟩
  · intro p hp a ha
    have h1 := (mem_read_timestamps_py hp).1
    rw [ha] at h1
    simp only [PyFloat.le, decide_eq_false_iff_not, not_le] at h1
    exact h1
  · intro p hp b hb
    have h1 := (mem_read_timestamps_py hp).2
    rw [hb] at h1
    simp only [PyFloat.lt, decide_eq_false_iff_not, not_lt] at h1
    exact h1
  · intro hfin
    unfold read_timestamps_py
    exact sortByStart_sorted (fun x hx => hfin x (by
      unfold read_timestamps_py
      rw [mem_sortByStart]
      exact hx))

/-- Witness for C3 (amended): a marker file whose first line has a `nan`
seconds field — retained, with its finite end kept — and whose second
line's end 110 is clamped to 100; plus a fully finite file on which the
sortedness conclusion applies. -/
theorem read_timestamps_py_sorted_and_clamped_witness :
    (PyFloat.le (.finite 100) .nan = false ∧
      PyFloat.lt (.finite 100) (.finite 5) = false) ∧
    ((10 : ℚ) < 100 ∧ (100 : ℚ) ≤ 100) ∧
    (read_timestamps_py [String.data "0:00:05 --> 0:00:08",
      String.data "0:00:10 --> 0:00:20"] 100).Pairwise
        (fun x y => PyFloat.le x.1 y.1 = true) := by
  have h := read_timestamps_py_sorted_and_clamped
    [String.data "0:00:nan --> 0:00:05", String.data "0:00:10 --> 0:01:50"] 100
  have hm1 : (PyFloat.nan, PyFloat.finite 5) ∈
      read_timestamps_py [String.data "0:00:nan --> 0:00:05",
        String.data "0:00:10 --> 0:01:50"] 100 :=
    of_decide_eq_true (by with_unfolding_all rfl)
  have hm2 : (PyFloat.finite 10, PyFloat.finite 100) ∈
      read_timestamps_py [String.data "0:00:nan --> 0:00:05",
        String.data "0:00:10 --> 0:01:50"] 100 :=
    of_decide_eq_true (by with_unfolding_all rfl)
  have h2 := read_timestamps_py_sorted_and_clamped
    [String.data "0:00:05 --> 0:00:08", String.data "0:00:10 --> 0:00:20"] 100
  have hout : read_timestamps_py [String.data "0:00:05 --> 0:00:08",
      String.data "0:00:10 --> 0:00:20"] 100 =
      [(PyFloat.finite 5, PyFloat.finite 8), (PyFloat.finite 10, PyFloat.finite 20)] := by
    with_unfolding_all rfl
  refine ⟨h.1 (PyFloat.nan, PyFloat.finite 5) hm1, ⟨?_, ?_⟩, ?_⟩
  · exact h.2.1 (PyFloat.finite 10, PyFloat.finite 100) hm2 10 rfl
  · exact h.2.2.1 (PyFloat.finite 10, PyFloat.finite 100) hm2 100 rfl
  · refine h2.2.2.2 ?_
    rw [hout]
    intro p hp
    rcases List.mem_cons.mp hp with rfl | hp
    · exact ⟨5, rfl⟩
    · rcases List.mem_cons.mp hp with rfl | hp
      · exact ⟨10, rfl⟩
      · cases hp

/-- C4: on a sorted interval list `get_next_valid_timestamp` returns the
first interval whose start is at least `current_time + min_gap` and `none`
exactly when no interval qualifies; in particular on `[(5,8),(12,20)]`
with `min_gap = 2` it returns `(5,8)` at time 0, `(12,20)` at time 8 and
`none` at time 19. -/
theorem next_valid_timestamp_first_match :
    (∀ (ts : List (ℚ × ℚ)) (c g : ℚ), List.Sorted tsLe ts →
      get_next_valid_timestamp c ts g = ts.find? (fun p => decide (c + g ≤ p.1)) ∧
      (get_next_valid_timestamp c ts g = none ↔ ∀ p ∈ ts, p.1 < c + g)) ∧
    get_next_valid_timestamp 0 [((5 : ℚ), 8), (12, 20)] 2 = some (5, 8) ∧
    get_next_valid_timestamp 8 [((5 : ℚ), 8), (12, 20)] 2 = some (12, 20) ∧
    get_next_valid_timestamp 19 [((5 : ℚ), 8), (12, 20)] 2 = none :=
  ⟨fun ts c g _ => ⟨head?_filter_eq_find? _ ts, get_next_valid_timestamp_none⟩,
   by with_unfolding_all rfl, by with_unfolding_all rfl, by with_unfolding_all rfl⟩

/-- Witness for C4 at the concrete sorted list of the spec's example. -/
theorem next_valid_timestamp_first_match_witness :
    get_next_valid_timestamp 0 [((5 : ℚ), 8), (12, 20)] 2 =
      List.find? (fun p => decide ((0 : ℚ) + 2 ≤ p.1)) [((5 : ℚ), 8), (12, 20)] :=
  (next_valid_timestamp_first_match.1 [((5 : ℚ), 8), (12, 20)] 0 2
    (of_decide_eq_true (by with_unfolding_all rfl))).1

/-- C8: a parse failure on a single marker line is non-fatal — the line
is skipped and parsing continues, so a file with one malformed and two
valid lines yields exactly two intervals; only an unreadable file is an
error. -/
theorem marker_line_failures_nonfatal :
    (∀ (pre suf : List (List Char)) (bad : List Char) (vd : ℚ),
        parseTimestampLine bad = none →
        read_timestamps (pre ++ bad :: suf) vd = read_timestamps (pre ++ suf) vd) ∧
    (read_timestamps [String.data "0:00:01 --> 0:00:03", String.data "0:0x:02 --> 0:00:04",
        String.data "0:00:05 --> 0:00:08"] 100).length = 2 ∧
    (∀ (lines : List (List Char)) (vd : ℚ),
        read_timestamps_file (Except.ok lines) vd = Except.ok (read_timestamps lines vd)) ∧
    (∀ vd : ℚ, read_timestamps_file (Except.error ()) vd = Except.error ()) := by
  refine ⟨?_, by with_unfolding_all rfl, fun _ _ => rfl, fun _ => rfl⟩
  intro pre suf bad vd hbad
  unfold read_timestamps
  have : retained vd bad = none := by unfold retained; rw [hbad]; rfl
  simp [List.filterMap_append, List.filterMap_cons, this]

/-- Witness for C8's skip property at a concrete malformed line. -/
theorem marker_line_failures_nonfatal_witness :
    read_timestamps [String.data "0:00:01 --> 0:00:03", String.data "garbage",
        String.data "0:00:05 --> 0:00:08"] 100 =
      read_timestamps [String.data "0:00:01 --> 0:00:03",
        String.data "0:00:05 --> 0:00:08"] 100 :=
  marker_line_failures_nonfatal.1 [String.data "0:00:01 --> 0:00:03"]
    [String.data "0:00:05 --> 0:00:08"] (String.data "garbage") 100
    (by with_unfolding_all rfl)

/-- C9, counterexample: a marker file repeating the same valid range on
two lines yields that interval twice — the parser's output is not
deduplicated. -/
theorem read_timestamps_keeps_duplicates_cex :
    read_timestamps [String.data "0:00:05 --> 0:00:08",
        String.data "0:00:05 --> 0:00:08"] 100 = [(5, 8), (5, 8)] ∧
    List.count ((5 : ℚ), (8 : ℚ)) (read_timestamps [String.data "0:00:05 --> 0:00:08",
        String.data "0:00:05 --> 0:00:08"] 100) = 2 :=
  ⟨by with_unfolding_all rfl, by with_unfolding_all rfl⟩

/-- C9 (amended): the parser's output is sorted but not deduplicated —
every retained line contributes exactly one interval, so each `(start,
end)` pair appears in the output exactly as many times as retained lines
produce it. -/
theorem read_timestamps_multiplicity (lines : List (List Char)) (vd : ℚ) (x : ℚ × ℚ) :
    (read_timestamps lines vd).countP (fun q => decide (q = x)) =
      (lines.filterMap (retained vd)).countP (fun q => decide (q = x)) :=
  (List.perm_insertionSort tsLe (lines.filterMap (retained vd))).countP_eq _

/-! ## Planner loop invariants -/

/-- Per-segment facts every generator establishes on the descriptor it
returns: the extraction window is non-degenerate and ends no later than
the cursor value the generator returned, a freeze segment's cursor is its
start plus the 3-second hold over a `0.1` s window, and a slow segment's
timeline duration doubles its extraction duration. -/
def GoodSeg (s : SegmentDescriptor) : Prop :=
  0 ≤ s.extraction_duration ∧
  s.extraction_start + s.extraction_duration ≤ s.resolved_end ∧
  (s.effect = .freeze →
    s.resolved_end = s.extraction_start + 3 ∧ s.extraction_duration = 1/10) ∧
  (s.effect = .slow → s.timeline_duration = 2 * s.extraction_duration)

/-- Ordering between two accepted segments: the earlier one's window ends
before the later one starts, and the later one starts at least the
minimum gap of 2 s after the earlier one's resolved end. -/
def rel2 (a b : SegmentDescriptor) : Prop :=
  a.extraction_start + a.extraction_duration ≤ b.extraction_start ∧
  a.resolved_end + 2 ≤ b.extraction_start

/-- The loop invariant: every accepted segment is well-formed and lies
entirely before the current cursor, and the plan is pairwise ordered. -/
def PlanInv (st : PlanState) : Prop :=
  (∀ s ∈ st.plan, GoodSeg s ∧ s.resolved_end ≤ st.current_time) ∧
  st.plan.Pairwise rel2

theorem generate_normal_clip_some {vd c u : ℚ} {ts : List (ℚ × ℚ)}
    {seg : SegmentDescriptor} {t : ℚ}
    (h : generate_normal_clip vd c ts u = some (seg, t)) :
    seg.effect = .normal ∧ GoodSeg seg ∧ c + 2 ≤ seg.extraction_start ∧
      t = seg.resolved_end := by
  unfold generate_normal_clip at h
  rcases hg : get_next_valid_timestamp c ts 2 with _ | nt
  · rw [hg] at h; exact absurd h (by simp)
  · rw [hg] at h
    simp only at h
    by_cases hd : nt.1 + (2 + uclamp u) ≥ vd
    · rw [if_pos hd] at h; exact absurd h (by simp)
    · rw [if_neg hd] at h
      have hmin : min (nt.1 + (2 + uclamp u)) vd = nt.1 + (2 + uclamp u) :=
        min_eq_left (le_of_lt (not_le.mp hd))
      have hu : 0 ≤ uclamp u := le_max_left 0 _
      injection h with h'
      obtain ⟨h1, h2⟩ := Prod.mk.inj h'
      subst h1; subst h2
      unfold GoodSeg
      dsimp only
      rw [hmin]
      exact ⟨rfl, ⟨by linarith, by linarith,
        fun hh => absurd hh (by decide), fun hh => absurd hh (by decide)⟩,
        (get_next_valid_timestamp_mem hg).1, rfl⟩

theorem apply_slow_motion_effect_some {vd c : ℚ} {ts : List (ℚ × ℚ)}
    {seg : SegmentDescriptor} {t : ℚ}
    (h : apply_slow_motion_effect vd c ts = some (seg, t)) :
    seg.effect = .slow ∧ GoodSeg seg ∧ c + 2 ≤ seg.extraction_start ∧
      t = seg.resolved_end := by
  unfold apply_slow_motion_effect at h
  rcases hg : get_next_valid_timestamp c ts 2 with _ | nt
  · rw [hg] at h; exact absurd h (by simp)
  · rw [hg] at h
    simp only at h
    by_cases hd : nt.1 + 2 ≥ vd
    · rw [if_pos hd] at h; exact absurd h (by simp)
    · rw [if_neg hd] at h
      have hmin : min (nt.1 + 2) vd = (nt.1 + 2 : ℚ) := min_eq_left (le_of_lt (not_le.mp hd))
      injection h with h'
      obtain ⟨h1, h2⟩ := Prod.mk.inj h'
      subst h1; subst h2
      unfold GoodSeg
      dsimp only
      rw [hmin]
      exact ⟨rfl, ⟨by linarith, by linarith,
        fun hh => absurd hh (by decide), fun _ => rfl⟩,
        (get_next_valid_timestamp_mem hg).1, rfl⟩

theorem apply_freeze_effect_some {vd c : ℚ} {ts : List (ℚ × ℚ)}
    {seg : SegmentDescriptor} {t : ℚ}
    (h : apply_freeze_effect vd c ts = some (seg, t)) :
    seg.effect = .freeze ∧ GoodSeg seg ∧ c + 2 ≤ seg.extraction_start ∧
      t = seg.resolved_end := by
  unfold apply_freeze_effect at h
  rcases hg : get_next_valid_timestamp c ts 2 with _ | nt
  · rw [hg] at h; exact absurd h (by simp)
  · rw [hg] at h
    simp only at h
    by_cases hd : nt.1 + 1/10 ≥ vd
    · rw [if_pos hd] at h; exact absurd h (by simp)
    · rw [if_neg hd] at h
      have hmin : min (nt.1 + 1/10) vd = (nt.1 + 1/10 : ℚ) :=
        min_eq_left (le_of_lt (not_le.mp hd))
      injection h with h'
      obtain ⟨h1, h2⟩ := Prod.mk.inj h'
      subst h1; subst h2
      unfold GoodSeg
      dsimp only
      rw [hmin]
      exact ⟨rfl, ⟨by linarith, by linarith,
        fun _ => ⟨rfl, by ring⟩, fun hh => absurd hh (by decide)⟩,
        (get_next_valid_timestamp_mem hg).1, rfl⟩

theorem runGenerator_some {vd c u : ℚ} {ts : List (ℚ × ℚ)} {eff : EffectKind}
    {seg : SegmentDescriptor} {t : ℚ}
    (h : runGenerator vd c ts eff u = some (seg, t)) :
    seg.effect = eff ∧ GoodSeg seg ∧ c + 2 ≤ seg.extraction_start ∧
      t = seg.resolved_end := by
  cases eff with
  | normal => exact generate_normal_clip_some h
  | slow => exact apply_slow_motion_effect_some h
  | freeze => exact apply_freeze_effect_some h

theorem planStep_inv {vd : ℚ} {ts : List (ℚ × ℚ)} {st : PlanState} {d : Draw}
    (h : PlanInv st) : PlanInv (planStep vd ts st d) := by
  unfold planStep
  rcases hr : runGenerator vd st.current_time ts (chosenEffect st d) d.u with _ | ⟨seg, t⟩
  · exact h
  · obtain ⟨-, hgood, hge, ht⟩ := runGenerator_some hr
    have hseg_le : seg.extraction_start ≤ seg.resolved_end := by
      have h1 := hgood.1; have h2 := hgood.2.1; linarith
    constructor
    · intro s hs
      replace hs : s ∈ st.plan ++ [seg] := hs
      rcases List.mem_append.mp hs with hs | hs
      · obtain ⟨hg, hle⟩ := h.1 s hs
        refine ⟨hg, ?_⟩
        show s.resolved_end ≤ t
        rw [ht]; linarith
      · have : s = seg := by simpa using hs
        subst this
        refine ⟨hgood, ?_⟩
        show s.resolved_end ≤ t
        rw [ht]
    · show (st.plan ++ [seg]).Pairwise rel2
      rw [List.pairwise_append]
      refine ⟨h.2, List.pairwise_singleton _ _, ?_⟩
      intro a ha b hb
      have : b = seg := by simpa using hb
      subst this
      obtain ⟨hg, hle⟩ := h.1 a ha
      have h1 := hg.1; have h2 := hg.2.1
      exact ⟨by linarith, by linarith⟩

theorem planLoop_inv {vd target : ℚ} {ts : List (ℚ × ℚ)} :
    ∀ (ds : List Draw) (st : PlanState), PlanInv st →
      PlanInv (planLoop vd target ts ds st) := by
  intro ds
  induction ds with
  | nil => intro st h; exact h
  | cons d ds ih =>
    intro st h
    simp only [planLoop]
    split
    · split
      · exact planStep_inv h
      · exact ih _ (planStep_inv h)
    · exact h

theorem runPlanner_inv (vd target : ℚ) (ts : List (ℚ × ℚ)) (draws : List Draw) :
    PlanInv (runPlanner vd target ts draws) :=
  planLoop_inv draws initPlanState ⟨fun s hs => absurd hs (by simp [initPlanState]),
    List.Pairwise.nil⟩

/-! ## Claim theorems: planner invariants -/

/-- C1: in every planning run, for every sequence of random draws, the
accepted segments' extraction windows
`[extraction_start, extraction_start + extraction_duration)` are pairwise
disjoint on the source timeline, and every later segment's window starts
at or after an earlier segment's resolved end (the cursor value its
generator returned) plus the minimum gap of 2 s. -/
theorem planner_extraction_windows_disjoint (vd target : ℚ) (ts : List (ℚ × ℚ))
    (draws : List Draw) :
    (runPlanner vd target ts draws).plan.Pairwise (fun a b =>
      (∀ x : ℚ, ¬(a.extraction_start ≤ x ∧ x < a.extraction_start + a.extraction_duration ∧
        b.extraction_start ≤ x ∧ x < b.extraction_start + b.extraction_duration)) ∧
      a.resolved_end + 2 ≤ b.extraction_start) := by
  refine (runPlanner_inv vd target ts draws).2.imp ?_
  rintro a b ⟨hord, hgap⟩
  refine ⟨?_, hgap⟩
  rintro x ⟨h1, h2, h3, h4⟩
  linarith

/-- C7: every accepted slow-motion segment contributes twice its
extraction duration to the planned timeline, because the extracted window
plays back at half speed. -/
theorem slow_segment_timeline_doubles (vd target : ℚ) (ts : List (ℚ × ℚ))
    (draws : List Draw) (s : SegmentDescriptor)
    (hs : s ∈ (runPlanner vd target ts draws).plan) (he : s.effect = .slow) :
    s.timeline_duration = 2 * s.extraction_duration :=
  ((runPlanner_inv vd target ts draws).1 s hs).1.2.2.2 he

/-- Witness for C7: a run accepting one slow-motion segment, whose
timeline duration 4 doubles its extraction duration 2. -/
theorem slow_segment_timeline_doubles_witness :
    (⟨.slow, 5, 2, 4, 7⟩ : SegmentDescriptor) ∈
      (runPlanner 100 60 [((5 : ℚ), 50)] [⟨3, 0⟩]).plan ∧
    (⟨.slow, 5, 2, 4, 7⟩ : SegmentDescriptor).timeline_duration =
      2 * (⟨.slow, 5, 2, 4, 7⟩ : SegmentDescriptor).extraction_duration := by
  have hmem : (⟨.slow, 5, 2, 4, 7⟩ : SegmentDescriptor) ∈
      (runPlanner 100 60 [((5 : ℚ), 50)] [⟨3, 0⟩]).plan :=
    of_decide_eq_true (by with_unfolding_all rfl)
  exact ⟨hmem, slow_segment_timeline_doubles 100 60 _ _ _ hmem rfl⟩

/-- C10: a successful freeze-generator call returns as next cursor the
interval start plus the full 3-second freeze display duration (the
extraction window itself is only `0.1` s), and consequently no segment
accepted later in the same run can extract source material from the
skipped stretch `(start + 0.1, start + 3)`. -/
theorem freeze_cursor_skips_held_material :
    (∀ (vd c : ℚ) (ts : List (ℚ × ℚ)) (seg : SegmentDescriptor) (t : ℚ),
      apply_freeze_effect vd c ts = some (seg, t) →
      t = seg.extraction_start + 3 ∧ seg.extraction_duration = 1/10) ∧
    (∀ (vd target : ℚ) (ts : List (ℚ × ℚ)) (draws : List Draw)
      (l1 l2 : List SegmentDescriptor) (f : SegmentDescriptor),
      (runPlanner vd target ts draws).plan = l1 ++ f :: l2 →
      f.effect = .freeze →
      ∀ s ∈ l2, ∀ x : ℚ, f.extraction_start + 1/10 < x → x < f.extraction_start + 3 →
        ¬(s.extraction_start ≤ x ∧ x < s.extraction_start + s.extraction_duration)) := by
  constructor
  · intro vd c ts seg t h
    obtain ⟨heff, hgood, -, ht⟩ := apply_freeze_effect_some h
    obtain ⟨hre, hed⟩ := hgood.2.2.1 heff
    exact ⟨by rw [ht, hre], hed⟩
  · intro vd target ts draws l1 l2 f hplan heff s hs x hx1 hx2
    have hinv := runPlanner_inv vd target ts draws
    have hpair := hinv.2
    rw [hplan] at hpair
    have h2 := (List.pairwise_append.mp hpair).2.1
    have hfs : rel2 f s := (List.pairwise_cons.mp h2).1 s hs
    have hf_good : GoodSeg f := (hinv.1 f (by rw [hplan]; simp)).1
    obtain ⟨hre, -⟩ := hf_good.2.2.1 heff
    rintro ⟨hsx, -⟩
    have hgap := hfs.2
    rw [hre] at hgap
    linarith

/-- Witness for C10: a run that accepts a freeze at interval start 5
(cursor resolving to `5 + 3 = 8`) followed by a normal segment, which
indeed cannot cover the skipped point `x = 6`. -/
theorem freeze_cursor_skips_held_material_witness :
    (runPlanner 100 60 [((5 : ℚ), 50), (20, 60)] [⟨4, 0⟩, ⟨0, 0⟩]).plan =
      [⟨.freeze, 5, 1/10, 3, 8⟩, ⟨.normal, 20, 2, 2, 22⟩] ∧
    ¬((20 : ℚ) ≤ 6 ∧ (6 : ℚ) < 20 + 2) := by
  have hplan : (runPlanner 100 60 [((5 : ℚ), 50), (20, 60)] [⟨4, 0⟩, ⟨0, 0⟩]).plan =
      [] ++ (⟨.freeze, 5, 1/10, 3, 8⟩ : SegmentDescriptor) ::
        [⟨.normal, 20, 2, 2, 22⟩] := by
    with_unfolding_all rfl
  refine ⟨by simpa using hplan, ?_⟩
  exact freeze_cursor_skips_held_material.2 100 60 _ _ [] [⟨.normal, 20, 2, 2, 22⟩]
    ⟨.freeze, 5, 1/10, 3, 8⟩ hplan rfl ⟨.normal, 20, 2, 2, 22⟩ (by simp) 6
    (by norm_num) (by norm_num)

/-! ## Effect counters -/

/-- How many accepted segments of one kind the plan holds. -/
def kindCount (k : EffectKind) (l : List SegmentDescriptor) : ℕ :=
  (l.filter fun s => decide (s.effect = k)).length

theorem countsGet_bump (c : EffectCounts) (e k : EffectKind) :
    countsGet (bump c e) k = countsGet c k + (if e = k then 1 else 0) := by
  cases e <;> cases k <;> simp [bump, countsGet]

theorem kindCount_append (k : EffectKind) (l : List SegmentDescriptor)
    (s : SegmentDescriptor) :
    kindCount k (l ++ [s]) = kindCount k l + (if s.effect = k then 1 else 0) := by
  by_cases h : s.effect = k <;>
    simp [kindCount, List.filter_append, List.filter_cons, h]

/-- The counters agree exactly with the accepted segments of the plan. -/
def CntEq (st : PlanState) : Prop :=
  ∀ k, countsGet st.counts k = kindCount k st.plan

theorem planStep_counts {vd : ℚ} {ts : List (ℚ × ℚ)} {st : PlanState} {d : Draw}
    (hc : CntEq st) :
    ((planStep vd ts st d).failed = none ∧ CntEq (planStep vd ts st d)) ∨
    ((planStep vd ts st d).failed = some (chosenEffect st d) ∧
      (planStep vd ts st d).plan = st.plan ∧
      ∀ k, countsGet (planStep vd ts st d).counts k =
        kindCount k (planStep vd ts st d).plan +
          (if chosenEffect st d = k then 1 else 0)) := by
  unfold planStep
  rcases hr : runGenerator vd st.current_time ts (chosenEffect st d) d.u with _ | ⟨seg, t⟩
  · refine Or.inr ⟨rfl, rfl, fun k => ?_⟩
    show countsGet (bump st.counts (chosenEffect st d)) k =
      kindCount k st.plan + (if chosenEffect st d = k then 1 else 0)
    rw [countsGet_bump, hc k]
  · refine Or.inl ⟨rfl, fun k => ?_⟩
    show countsGet (bump st.counts (chosenEffect st d)) k = kindCount k (st.plan ++ [seg])
    rw [countsGet_bump, hc k, kindCount_append, (runGenerator_some hr).1]

theorem planLoop_counts {vd target : ℚ} {ts : List (ℚ × ℚ)} :
    ∀ (ds : List Draw) (st : PlanState), st.failed = none → CntEq st →
      ∀ k, countsGet (planLoop vd target ts ds st).counts k =
        kindCount k (planLoop vd target ts ds st).plan +
          (if (planLoop vd target ts ds st).failed = some k then 1 else 0) := by
  intro ds
  induction ds with
  | nil =>
    intro st hf hc k
    show countsGet st.counts k = kindCount k st.plan +
      (if st.failed = some k then 1 else 0)
    rw [hc k, hf]
    simp
  | cons d ds ih =>
    intro st hf hc k
    simp only [planLoop]
    split
    · rcases @planStep_counts vd ts st d hc with ⟨hf', hc'⟩ |
          ⟨hf', hplan', hcnt⟩
      · split
        · rename_i hfail
          rw [hf'] at hfail
          simp at hfail
        · exact ih _ hf' hc' k
      · split
        · rw [hf']
          simp only [Option.some.injEq]
          exact hcnt k
        · rename_i hfail
          rw [hf'] at hfail
          simp at hfail
    · show countsGet st.counts k = kindCount k st.plan +
        (if st.failed = some k then 1 else 0)
      rw [hc k, hf]
      simp

/-- C5, counterexample: a run whose single (normal-kind) generator call
fails leaves `effect_counts['normal'] = 1` while zero normal segments were
accepted — the counter is bumped before the acceptance check, so at loop
exit it does not equal the accepted count. -/
theorem effect_counters_count_failed_call :
    (runPlanner 100 60 [] [⟨0, 0⟩]).counts.normal = 1 ∧
    kindCount .normal (runPlanner 100 60 [] [⟨0, 0⟩]).plan = 0 ∧
    (runPlanner 100 60 [] [⟨0, 0⟩]).counts.normal ≠
      kindCount .normal (runPlanner 100 60 [] [⟨0, 0⟩]).plan :=
  ⟨by with_unfolding_all rfl, by with_unfolding_all rfl,
   of_decide_eq_true (by with_unfolding_all rfl)⟩

/-- C5 (amended): each kind's counter is bumped per generator call, before
the acceptance check; at loop exit every counter equals the number of
accepted segments of that kind, plus one exactly for the kind of the
final failed generator call when the loop ended on a failure. -/
theorem effect_counters_per_attempt (vd target : ℚ) (ts : List (ℚ × ℚ))
    (draws : List Draw) (k : EffectKind) :
    countsGet (runPlanner vd target ts draws).counts k =
      kindCount k (runPlanner vd target ts draws).plan +
        (if (runPlanner vd target ts draws).failed = some k then 1 else 0) :=
  planLoop_counts draws initPlanState rfl (fun k => by cases k <;> rfl) k

/-- C6: whenever the planner loop ends having accepted zero segments —
in particular when no interval starts at least the minimum gap after
time 0 — `generate_recap` fails with the insufficient-material error
instead of producing an empty plan. -/
theorem empty_plan_raises_insufficient (vd : ℚ) (ad : Option ℚ) (ts : List (ℚ × ℚ))
    (draws : List Draw) (tidx : List ℕ)
    (h : (runPlanner vd (recapTarget vd ad) ts draws).plan = []) :
    generate_recap vd ad ts draws tidx =
      Except.error "Tidak dapat menghasilkan klip video yang cukup." := by
  unfold generate_recap
  rw [h]
  rfl

/-- Witness for C6: with a single interval starting at 1 (below the
minimum gap 2 from time 0) the first generator call fails, the loop
accepts nothing, and the run errors out. -/
theorem empty_plan_raises_insufficient_witness :
    generate_recap 100 none [((1 : ℚ), 10)] [⟨0, 0⟩] [] =
      Except.error "Tidak dapat menghasilkan klip video yang cukup." :=
  empty_plan_raises_insufficient 100 none [((1 : ℚ), 10)] [⟨0, 0⟩] []
    (by with_unfolding_all rfl)

/-! ## Transition placer correctness -/

/-- No two chosen transition boundaries are adjacent: distinct indices
are at least 2 apart. -/
def Spaced (idx : List ℕ) : Prop :=
  ∀ j ∈ idx, ∀ k ∈ idx, j ≠ k → j + 2 ≤ k ∨ k + 2 ≤ j

instance (idx : List ℕ) : Decidable (Spaced idx) := by
  unfold Spaced; infer_instance

theorem placeAux_flatten {α : Type} (idx : List ℕ) (hsp : Spaced idx) :
    ∀ (l : List α) (i : ℕ), (∀ j ∈ idx, j + 1 < i + l.length) →
      ((i = 0 ∨ (i - 1) ∉ idx) → flattenRI (placeAux idx i l) = l) ∧
      ((0 < i ∧ (i - 1) ∈ idx) → flattenRI (placeAux idx i l) = l.drop 1) := by
  intro l
  induction l with
  | nil =>
    intro i _
    exact ⟨fun _ => rfl, fun _ => rfl⟩
  | cons a rest ih =>
    cases rest with
    | nil =>
      intro i _
      constructor
      · intro hnc
        have hnm : i ∉ idx.map (· + 1) := by
          simp only [List.mem_map]
          rintro ⟨j, hj, hji⟩
          rcases hnc with h0 | hnotin
          · omega
          · exact hnotin ((show i - 1 = j by omega) ▸ hj)
        simp [placeAux, hnm, flattenRI]
      · rintro ⟨hpos, hin⟩
        have hm : i ∈ idx.map (· + 1) := by
          simp only [List.mem_map]
          exact ⟨i - 1, hin, by omega⟩
        simp [placeAux, hm, flattenRI]
    | cons b rest2 =>
      intro i hrange
      have hrange' : ∀ j ∈ idx, j + 1 < (i + 1) + (b :: rest2).length := by
        intro j hj
        have := hrange j hj
        simp only [List.length_cons] at *
        omega
      constructor
      · intro hnc
        by_cases hina : i ∈ idx
        · have heq : placeAux idx i (a :: b :: rest2) =
              .pair a b (3/10) :: placeAux idx (i + 1) (b :: rest2) := by
            simp [placeAux, hina]
          have hnext := (ih (i + 1) hrange').2
            ⟨by omega, by simpa using hina⟩
          rw [heq]
          simp only [flattenRI, hnext, List.drop_one, List.tail_cons]
        · have hnm : i ∉ idx.map (· + 1) := by
            simp only [List.mem_map]
            rintro ⟨j, hj, hji⟩
            rcases hnc with h0 | hnotin
            · omega
            · exact hnotin ((show i - 1 = j by omega) ▸ hj)
          have heq : placeAux idx i (a :: b :: rest2) =
              .single a :: placeAux idx (i + 1) (b :: rest2) := by
            simp [placeAux, hina, hnm]
          have hnext := (ih (i + 1) hrange').1 (Or.inr (by simpa using hina))
          rw [heq]
          simp only [flattenRI, hnext]
      · rintro ⟨hpos, hin⟩
        have hina : i ∉ idx := by
          intro hi
          have := hsp _ hin _ hi (by omega)
          omega
        have hm : i ∈ idx.map (· + 1) := by
          simp only [List.mem_map]
          exact ⟨i - 1, hin, by omega⟩
        have heq : placeAux idx i (a :: b :: rest2) =
            placeAux idx (i + 1) (b :: rest2) := by
          simp [placeAux, hina, hm]
        have hnext := (ih (i + 1) hrange').1 (Or.inr (by simpa using hina))
        rw [heq, hnext]
        simp

/-- C2, counterexample: with 6 planned clips the sampled transition count
is 2, and the adjacent boundary choice `[0, 1]` — a value
`random.sample(range(5), 2)` can return — makes the placer emit clip 1 in
two crossfade pairs, so the flattened instruction sequence does not
reproduce the planned order. -/
theorem transition_placer_duplicates_segment :
    validTransitionSample 6 [0, 1] ∧
    flattenRI (placeTransitions [0, 1, 2, 3, 4, 5] [0, 1]) = [0, 1, 1, 2, 3, 4, 5] ∧
    flattenRI (placeTransitions [0, 1, 2, 3, 4, 5] [0, 1]) ≠ [0, 1, 2, 3, 4, 5] :=
  ⟨of_decide_eq_true (by with_unfolding_all rfl),
   of_decide_eq_true (by with_unfolding_all rfl),
   of_decide_eq_true (by with_unfolding_all rfl)⟩

/-- C2 (amended): whenever the chosen transition boundary indices are in
range and pairwise non-adjacent, every segment belongs to exactly one
render instruction and flattening the final instruction sequence
reproduces the planned order exactly; adjacent chosen boundaries instead
emit their shared segment in two pair instructions. -/
theorem transition_placer_nonadjacent_flatten {α : Type} (clips : List α)
    (idx : List ℕ) (hrange : ∀ j ∈ idx, j + 1 < clips.length) (hsp : Spaced idx) :
    flattenRI (placeTransitions clips idx) = clips :=
  (placeAux_flatten idx hsp clips 0 (by simpa using hrange)).1 (Or.inl rfl)

/-- Witness for C2 (amended): the non-adjacent sample `[0, 2]` on 6 clips
flattens back to the original order. -/
theorem transition_placer_nonadjacent_flatten_witness :
    flattenRI (placeTransitions [0, 1, 2, 3, 4, 5] [0, 2]) = [0, 1, 2, 3, 4, 5] :=
  transition_placer_nonadjacent_flatten [0, 1, 2, 3, 4, 5] [0, 2]
    (of_decide_eq_true (by with_unfolding_all rfl))
    (of_decide_eq_true (by with_unfolding_all rfl))

end RecapCli
